import Mathlib

/-!
Verification of the forensic churn & coupling analysis pipeline
(`scripts/architect/generate_churn.py`).

The script mines a git log for two signals: per-file churn (commit counts)
and logical coupling (file pairs that change together), then classifies
critical-risk files.  All the pure computation of the script is embedded
below as executable Lean functions; the one external effect (invoking the
`git` binary via `subprocess.run`) is modelled by an explicit outcome type
`GitResult`.
-/

/-- Lexicographic code-point comparison of character lists.  This is the
order Python's `sorted` and `<` use on strings, needed by
`calculate_coupling` (line 75) and the `sorted(critical_files)` loop
(line 186) of generate_churn.py. -/
def lexLt : List Char → List Char → Bool
  | [], [] => false
  | [], _ :: _ => true
  | _ :: _, [] => false
  | c :: cs, d :: ds => if c = d then lexLt cs ds else decide (c.val.toNat < d.val.toNat)

/-- String comparison via `lexLt` on the underlying character lists. -/
def strLt (a b : String) : Bool := lexLt a.data b.data

/-- Characters removed by Python's `str.strip()`. -/
def isWs (c : Char) : Bool :=
  c = ' ' || c = '\t' || c = '\n' || c = '\r' || c = '\x0b' || c = '\x0c'

/-- Python `str.strip()` on a character list: drop whitespace at both ends. -/
def trimChars (l : List Char) : List Char :=
  ((l.dropWhile isWs).reverse.dropWhile isWs).reverse

/-- Python `str.split("\n")` on a character list (`acc` holds the current
line reversed). -/
def splitNl : List Char → List Char → List (List Char)
  | [], acc => [acc.reverse]
  | ch :: cs, acc => if ch = '\n' then acc.reverse :: splitNl cs [] else splitNl cs (ch :: acc)

/-- A commit record: commit hash together with its filtered changed-file
list, as produced by `get_commits_last_12_months` (lines 25-56). -/
abbrev Commit := String × List String

/-- Extension whitelist of line 50, as character lists. -/
def relevantExtsData : List (List Char) :=
  [".rs".data, ".ts".data, ".py".data, ".md".data, ".toml".data]

/-- Flushing the current commit (lines 44-45 and 53-54): the commit is
appended only when the hash is a non-empty string (Python truthiness) and
at least one filtered file was collected. -/
def flushCommit (h : Option (List Char)) (fs : List (List Char)) : List Commit :=
  match h with
  | some hc => if hc ≠ [] ∧ fs ≠ [] then [(String.mk hc, fs.map String.mk)] else []
  | none => []

/-- The line loop of `get_commits_last_12_months` (lines 42-54): a
`COMMIT:` marker line starts a new commit, a non-blank line ending in a
whitelisted extension (checked on the raw line, line 50) contributes its
stripped form (line 51), every other line is ignored. -/
def parseLines : List (List Char) → Option (List Char) → List (List Char) → List Commit
  | [], h, fs => flushCommit h fs
  | l :: rest, h, fs =>
    if l.take 7 = "COMMIT:".data then
      flushCommit h fs ++ parseLines rest (some (l.drop 7)) []
    else if trimChars l ≠ [] then
      if relevantExtsData.any (fun e => e.isSuffixOf l) then
        parseLines rest h (fs ++ [trimChars l])
      else
        parseLines rest h fs
    else
      parseLines rest h fs

/-- The pure core of `get_commits_last_12_months` (lines 25-56): parse the
raw log text (`log_output.strip().split("\n")`, line 42) into commit
records.  The git invocation that produces the text is modelled separately
by `run_git`. -/
def get_commits_from_log (text : String) : List Commit :=
  parseLines (splitNl (trimChars text.data) []) none []

/-- One `defaultdict(int)` increment `d[k] += 1`, on an association list
kept in key insertion order (Python dicts preserve insertion order). -/
def bump {κ : Type} [DecidableEq κ] (acc : List (κ × Nat)) (k : κ) : List (κ × Nat) :=
  match acc with
  | [] => [(k, 1)]
  | (g, c) :: rest => if g = k then (g, c + 1) :: rest else (g, c) :: bump rest k

/-- Increment the counter of every key of `ks` in turn. -/
def bumpAll {κ : Type} [DecidableEq κ] (acc : List (κ × Nat)) (ks : List κ) : List (κ × Nat) :=
  ks.foldl bump acc

/-- Accumulate a `defaultdict(int)` over a stream of key lists, starting
empty: the counter-accumulation pattern of lines 60-63 and 70-76. -/
def tally {κ : Type} [DecidableEq κ] (kss : List (List κ)) : List (κ × Nat) :=
  kss.foldl bumpAll []

/-- Dictionary lookup with default 0 (`defaultdict(int)` read /
`churn.get(f, 0)`). -/
def countOf {κ : Type} [DecidableEq κ] (acc : List (κ × Nat)) (k : κ) : Nat :=
  ((acc.filter (fun e => decide (e.1 = k))).map (fun e => e.2)).sum

/-- Occurrence count of `k` in a key list, with the equality test of the
ambient `DecidableEq` instance. -/
def countKey {κ : Type} [DecidableEq κ] (ks : List κ) (k : κ) : Nat :=
  (ks.filter (fun x => decide (x = k))).length

/-- Keys of a tally in first-seen order. -/
def firstSeenKeys {κ : Type} [DecidableEq κ] (kss : List (List κ)) : List κ :=
  kss.foldl (fun a ks => ks.foldl (fun a k => if k ∈ a then a else a ++ [k]) a) []

/-- The raw churn dictionary of `calculate_churn` (lines 60-63), before
sorting: keys in first-seen order. -/
def churnRaw (commits : List Commit) : List (String × Nat) :=
  tally (commits.map (fun c => c.2))

/-- Files in the order they are first seen in the commit stream. -/
def firstSeen (commits : List Commit) : List String :=
  firstSeenKeys (commits.map (fun c => c.2))

/-- Stable insertion step for a descending sort by a `Nat` key: `x` is
placed after every earlier element whose key is `≥ key x`. -/
def insertDescBy {α : Type} (key : α → Nat) (x : α) : List α → List α
  | [] => [x]
  | y :: ys => if key y ≤ key x then x :: y :: ys else y :: insertDescBy key x ys

/-- Stable descending sort by a `Nat` key.  Python's `sorted(..., key=lambda
x: -count)` (lines 64 and 85) is a stable sort by descending count; a stable
sort is uniquely determined by the key, so insertion sort gives the same
list Timsort does. -/
def sortDescBy {α : Type} (key : α → Nat) : List α → List α
  | [] => []
  | x :: xs => insertDescBy key x (sortDescBy key xs)

/-- `calculate_churn` (lines 58-64): count commits per file, present in
descending count order (stable, so ties keep dict insertion order =
first-seen order). -/
def calculate_churn (commits : List Commit) : List (String × Nat) :=
  sortDescBy (fun p => p.2) (churnRaw commits)

/-- Insertion step for Python's ascending `sorted` on strings. -/
def insertAscStr (x : String) : List String → List String
  | [] => [x]
  | y :: ys => if strLt y x then y :: insertAscStr x ys else x :: y :: ys

/-- Ascending lexicographic sort of strings (`sorted(files)` on line 75 and
`sorted(critical_files)` on line 186). -/
def sortAsc : List String → List String
  | [] => []
  | x :: xs => insertAscStr x (sortAsc xs)

/-- Bulk-commit filter of line 74: only commits with 2 to 10 filtered files
are eligible for pairing. -/
def eligible (c : Commit) : Bool := decide (2 ≤ c.2.length) && decide (c.2.length ≤ 10)

/-- `itertools.combinations(l, 2)` in order: all positional pairs `(l[i],
l[j])` with `i < j`. -/
def pairsOf : List String → List (String × String)
  | [] => []
  | x :: xs => xs.map (fun y => (x, y)) ++ pairsOf xs

/-- Pair contribution of a single commit (lines 73-76): the commit's sorted
file list yields all 2-combinations when the commit is eligible, nothing
otherwise. -/
def commitPairs (c : Commit) : List (String × String) :=
  if eligible c then pairsOf (sortAsc c.2) else []

/-- The `cochange_count` dictionary of `calculate_coupling` (lines 70-76),
keys in first-creation order. -/
def cochangeRaw (commits : List Commit) : List ((String × String) × Nat) :=
  tally (commits.map commitPairs)

/-- `calculate_coupling` (lines 66-85): keep pairs whose counter reaches
`minCochanges` (default 5 in the script), sorted by descending count
(stable, so ties keep dict insertion order). -/
def calculate_coupling (minCochanges : Nat) (commits : List Commit) :
    List ((String × String) × Nat) :=
  sortDescBy (fun e => e.2) ((cochangeRaw commits).filter (fun e => decide (minCochanges ≤ e.2)))

/-- Line 181: files whose churn count is at least 20. -/
def highChurnFiles (churnT : List (String × Nat)) : List String :=
  (churnT.filter (fun p => decide (20 ≤ p.2))).map (fun p => p.1)

/-- Line 182: `f` participates in some retained coupling pair with count at
least 8. -/
def highCouplingIncident (coupling : List ((String × String) × Nat)) (f : String) : Bool :=
  coupling.any (fun e => decide (8 ≤ e.2) && (decide (e.1.1 = f) || decide (e.1.2 = f)))

/-- Lines 181-186: the critical-risk file set (`high_churn & high_coupling`)
listed in ascending lexicographic order via `sorted(critical_files)`; set
membership is modelled by `dedup`. -/
def critical_files (churnT : List (String × Nat))
    (coupling : List ((String × String) × Nat)) : List String :=
  sortAsc (((highChurnFiles churnT).filter (highCouplingIncident coupling)).dedup)

/-- Line 188: `sum(c for f1, f2, c in coupling if f in [f1, f2])` — the
aggregate coupling of `f` over the whole retained pair list. -/
def couplingTotal (coupling : List ((String × String) × Nat)) (f : String) : Nat :=
  ((coupling.filter (fun e => decide (e.1.1 = f) || decide (e.1.2 = f))).map (fun e => e.2)).sum

/-- Lines 186-189: the rendered risk section, one `(file, churn, total
coupling)` entry per critical file in ascending file order. -/
def riskEntries (churnT : List (String × Nat))
    (coupling : List ((String × String) × Nat)) : List (String × Nat × Nat) :=
  (critical_files churnT coupling).map (fun f => (f, countOf churnT f, couplingTotal coupling f))

/-- Line 160: the rendered neighbor list of one coupling cluster —
`sorted(connections, key=lambda x: -x[1])[:5]`.  The argument is the
cluster's neighbor set in the order the Python runtime enumerates it; for
a set of tuples containing strings that order depends on randomized string
hashing and so may differ between processes. -/
def neighborRender (conn : List (String × Nat)) : List (String × Nat) :=
  (sortDescBy (fun e => e.2) conn).take 5

/-- Outcome of the `subprocess.run(["git"] + args, ...)` call in `run_git`
(lines 15-23): the binary may be missing (Python raises
`FileNotFoundError`), git may exit nonzero with some captured stdout (an
invalid repository prints to stderr and leaves stdout empty), or git may
succeed. -/
inductive GitResult : Type where
  | toolMissing : GitResult
  | failed : String → GitResult
  | ok : String → GitResult

/-- `run_git` (lines 15-23).  `subprocess.run` is called without
`check=True` and the return code is never inspected: a nonzero git exit
still returns `result.stdout`.  Only a missing binary escapes as an
uncaught exception, which aborts the interpreter with nonzero status —
modelled as `Except.error`. -/
def run_git : GitResult → Except String String
  | GitResult.toolMissing => Except.error "FileNotFoundError: git executable not found"
  | GitResult.failed out => Except.ok out
  | GitResult.ok out => Except.ok out

/-- The analysis part of `main` (lines 195-213): extract commits from the
log text and compute the churn table and the retained coupling pairs. -/
def pipeline (g : GitResult) (minCochanges : Nat) :
    Except String (List (String × Nat) × List ((String × String) × Nat)) :=
  match run_git g with
  | Except.error e => Except.error e
  | Except.ok out =>
    Except.ok (calculate_churn (get_commits_from_log out),
               calculate_coupling minCochanges (get_commits_from_log out))

/-- Commit scenario of the spec: `C1={A}`, `C2={A,B}`, `C3={A,B,C}`. -/
def scenarioCommits : List Commit :=
  [("c1", ["A"]), ("c2", ["A", "B"]), ("c3", ["A", "B", "C"])]

/-- Concrete history exercising the risk section: churn `a.rs = b.rs = 20`,
`c.rs = 5`; retained pairs `(a.rs, b.rs) : 9` and `(a.rs, c.rs) : 5`. -/
def demoCommits : List Commit :=
  List.replicate 11 ("hb", ["b.rs"]) ++ List.replicate 9 ("hab", ["a.rs", "b.rs"]) ++
    List.replicate 5 ("hac", ["a.rs", "c.rs"]) ++ List.replicate 6 ("ha", ["a.rs"])

/-! ### Order lemmas for `lexLt` and `strLt` -/

theorem lexLt_irrefl (l : List Char) : lexLt l l = false := by
  induction l with
  | nil => rfl
  | cons c cs ih => simp [lexLt, ih]

theorem lexLt_asymm {l1 l2 : List Char} (h : lexLt l1 l2 = true) : lexLt l2 l1 = false := by
  induction l1 generalizing l2 with
  | nil =>
    cases l2 with
    | nil => simp [lexLt] at h
    | cons d ds => simp [lexLt]
  | cons c cs ih =>
    cases l2 with
    | nil => simp [lexLt] at h
    | cons d ds =>
      by_cases hcd : c = d
      · subst hcd
        simp only [lexLt, if_pos rfl] at h ⊢
        exact ih h
      · have hdc : d ≠ c := fun hh => hcd hh.symm
        simp only [lexLt, if_neg hcd, if_neg hdc, decide_eq_true_eq, decide_eq_false_iff_not] at h ⊢
        omega

theorem lexLt_eq_of_not_lt {l1 l2 : List Char} (h1 : lexLt l1 l2 = false)
    (h2 : lexLt l2 l1 = false) : l1 = l2 := by
  induction l1 generalizing l2 with
  | nil =>
    cases l2 with
    | nil => rfl
    | cons d ds => simp [lexLt] at h1
  | cons c cs ih =>
    cases l2 with
    | nil => simp [lexLt] at h2
    | cons d ds =>
      by_cases hcd : c = d
      · subst hcd
        simp only [lexLt, if_pos rfl] at h1 h2
        rw [ih h1 h2]
      · have hdc : d ≠ c := fun hh => hcd hh.symm
        simp only [lexLt, if_neg hcd, if_neg hdc, decide_eq_false_iff_not] at h1 h2
        exact absurd (Char.ext (UInt32.ext (by omega))) hcd

theorem lexLt_neg_trans {p q r : List Char} (h1 : lexLt p q = false)
    (h2 : lexLt q r = false) : lexLt p r = false := by
  induction p generalizing q r with
  | nil =>
    cases q with
    | nil => exact h2
    | cons d ds => simp [lexLt] at h1
  | cons c cs ih =>
    cases r with
    | nil => simp [lexLt]
    | cons e es =>
      cases q with
      | nil => simp [lexLt] at h2
      | cons d ds =>
        by_cases hcd : c = d
        · subst hcd
          by_cases hce : c = e
          · subst hce
            simp only [lexLt, if_pos rfl] at h1 h2 ⊢
            exact ih h1 h2
          · simp only [lexLt, if_pos rfl] at h1
            simp only [lexLt, if_neg hce] at h2 ⊢
            exact h2
        · by_cases hde : d = e
          · subst hde
            have hce : c ≠ d := hcd
            simp only [lexLt, if_neg hcd] at h1
            simp only [lexLt, if_neg hce]
            exact h1
          · simp only [lexLt, if_neg hcd, if_neg hde, decide_eq_false_iff_not] at h1 h2
            by_cases hce : c = e
            · subst hce
              exact absurd (Char.ext (UInt32.ext (by omega))) hcd
            · simp only [lexLt, if_neg hce, decide_eq_false_iff_not]
              omega

theorem strLt_irrefl (a : String) : strLt a a = false := lexLt_irrefl a.data

theorem strLt_asymm {a b : String} (h : strLt a b = true) : strLt b a = false := lexLt_asymm h

theorem strLt_eq_of_not_lt {a b : String} (h1 : strLt a b = false) (h2 : strLt b a = false) :
    a = b := String.ext (lexLt_eq_of_not_lt h1 h2)

theorem strLt_neg_trans {a b c : String} (h1 : strLt a b = false) (h2 : strLt b c = false) :
    strLt a c = false := lexLt_neg_trans h1 h2

theorem strLt_true_of_ne {a b : String} (h : strLt b a = false) (hne : a ≠ b) :
    strLt a b = true := by
  cases hab : strLt a b with
  | false => exact absurd (strLt_eq_of_not_lt hab h) hne
  | true => rfl

/-! ### Permutation, sortedness and stability of the sorts -/

theorem perm_insertAscStr (x : String) (l : List String) :
    (insertAscStr x l).Perm (x :: l) := by
  induction l with
  | nil => simp [insertAscStr]
  | cons y ys ih =>
    by_cases h : strLt y x = true
    · simp only [insertAscStr, h, if_true]
      exact (List.Perm.cons y ih).trans (List.Perm.swap x y ys)
    · simp [insertAscStr, h]

theorem perm_sortAsc (l : List String) : (sortAsc l).Perm l := by
  induction l with
  | nil => simp [sortAsc]
  | cons x xs ih => exact (perm_insertAscStr x (sortAsc xs)).trans (List.Perm.cons x ih)

theorem sorted_insertAscStr (x : String) (l : List String)
    (hs : List.Pairwise (fun a b => strLt b a = false) l) :
    List.Pairwise (fun a b => strLt b a = false) (insertAscStr x l) := by
  induction l with
  | nil => simp [insertAscStr]
  | cons y ys ih =>
    rcases List.pairwise_cons.mp hs with ⟨hy, hys⟩
    by_cases h : strLt y x = true
    · simp only [insertAscStr, h, if_true]
      refine List.pairwise_cons.mpr ⟨?_, ih hys⟩
      intro z hz
      rcases List.mem_cons.mp ((perm_insertAscStr x ys).mem_iff.mp hz) with rfl | hz'
      · exact strLt_asymm h
      · exact hy z hz'
    · have h' : strLt y x = false := by simpa using h
      simp only [insertAscStr, h, if_false]
      refine List.pairwise_cons.mpr ⟨?_, hs⟩
      intro z hz
      rcases List.mem_cons.mp hz with rfl | hz'
      · exact h'
      · exact strLt_neg_trans (hy z hz') h'

theorem sorted_sortAsc (l : List String) :
    List.Pairwise (fun a b => strLt b a = false) (sortAsc l) := by
  induction l with
  | nil => simp [sortAsc]
  | cons x xs ih => exact sorted_insertAscStr x (sortAsc xs) ih

theorem perm_insertDescBy {α : Type} (key : α → Nat) (x : α) (l : List α) :
    (insertDescBy key x l).Perm (x :: l) := by
  induction l with
  | nil => simp [insertDescBy]
  | cons y ys ih =>
    by_cases h : key y ≤ key x
    · simp [insertDescBy, h]
    · simp only [insertDescBy, if_neg h]
      exact (List.Perm.cons y ih).trans (List.Perm.swap x y ys)

theorem perm_sortDescBy {α : Type} (key : α → Nat) (l : List α) :
    (sortDescBy key l).Perm l := by
  induction l with
  | nil => simp [sortDescBy]
  | cons x xs ih => exact (perm_insertDescBy key x (sortDescBy key xs)).trans (List.Perm.cons x ih)

theorem sorted_insertDescBy {α : Type} (key : α → Nat) (x : α) (l : List α)
    (hs : List.Pairwise (fun a b => key b ≤ key a) l) :
    List.Pairwise (fun a b => key b ≤ key a) (insertDescBy key x l) := by
  induction l with
  | nil => simp [insertDescBy]
  | cons y ys ih =>
    rcases List.pairwise_cons.mp hs with ⟨hy, hys⟩
    by_cases h : key y ≤ key x
    · simp only [insertDescBy, if_pos h]
      refine List.pairwise_cons.mpr ⟨?_, hs⟩
      intro z hz
      rcases List.mem_cons.mp hz with rfl | hz'
      · exact h
      · exact le_trans (hy z hz') h
    · simp only [insertDescBy, if_neg h]
      refine List.pairwise_cons.mpr ⟨?_, ih hys⟩
      intro z hz
      rcases List.mem_cons.mp ((perm_insertDescBy key x ys).mem_iff.mp hz) with rfl | hz'
      · omega
      · exact hy z hz'

theorem sorted_sortDescBy {α : Type} (key : α → Nat) (l : List α) :
    List.Pairwise (fun a b => key b ≤ key a) (sortDescBy key l) := by
  induction l with
  | nil => simp [sortDescBy]
  | cons x xs ih => exact sorted_insertDescBy key x (sortDescBy key xs) ih

theorem filter_insertDescBy {α : Type} (key : α → Nat) (x : α) (k : Nat) (l : List α) :
    (insertDescBy key x l).filter (fun a => decide (key a = k)) =
      if key x = k then x :: l.filter (fun a => decide (key a = k))
      else l.filter (fun a => decide (key a = k)) := by
  induction l with
  | nil => by_cases hx : key x = k <;> simp [insertDescBy, hx]
  | cons y ys ih =>
    by_cases h : key y ≤ key x
    · simp only [insertDescBy, if_pos h, List.filter_cons]
      by_cases hx : key x = k <;> by_cases hy : key y = k <;> simp [hx, hy]
    · simp only [insertDescBy, if_neg h, List.filter_cons]
      have hxy : key x < key y := Nat.lt_of_not_le h
      by_cases hy : key y = k
      · have hx : ¬ key x = k := by omega
        simp [hy, hx, ih]
      · by_cases hx : key x = k <;> simp [hy, hx, ih]

theorem filter_sortDescBy {α : Type} (key : α → Nat) (k : Nat) (l : List α) :
    (sortDescBy key l).filter (fun a => decide (key a = k)) =
      l.filter (fun a => decide (key a = k)) := by
  induction l with
  | nil => rfl
  | cons x xs ih =>
    by_cases hx : key x = k <;>
      simp [sortDescBy, filter_insertDescBy, hx, List.filter_cons, ih]

/-! ### Counter (`defaultdict`) lemmas -/

theorem countKey_cons {κ : Type} [DecidableEq κ] (x : κ) (ks : List κ) (k : κ) :
    countKey (x :: ks) k = countKey ks k + if x = k then 1 else 0 := by
  by_cases h : x = k <;> simp [countKey, List.filter_cons, h]

theorem countKey_append {κ : Type} [DecidableEq κ] (l1 l2 : List κ) (k : κ) :
    countKey (l1 ++ l2) k = countKey l1 k + countKey l2 k := by
  simp [countKey, List.filter_append]

theorem countKey_eq_zero {κ : Type} [DecidableEq κ] {ks : List κ} {k : κ} (h : k ∉ ks) :
    countKey ks k = 0 := by
  induction ks with
  | nil => rfl
  | cons x xs ih =>
    simp only [List.mem_cons] at h
    push_neg at h
    have hx : ¬ (x = k) := fun hh => h.1 hh.symm
    simpa [countKey, List.filter_cons, hx] using ih h.2

theorem countKey_eq_one_of_mem {κ : Type} [DecidableEq κ] {ks : List κ} {k : κ}
    (hn : ks.Nodup) (h : k ∈ ks) : countKey ks k = 1 := by
  induction ks with
  | nil => simp at h
  | cons x xs ih =>
    rcases List.nodup_cons.mp hn with ⟨hx, hxs⟩
    rcases List.mem_cons.mp h with h1 | h1
    · have hxk : x = k := h1.symm
      subst hxk
      rw [countKey_cons, if_pos rfl, countKey_eq_zero hx]
    · have hxk : ¬ (x = k) := by
        intro hh
        subst hh
        exact hx h1
      rw [countKey_cons, if_neg hxk, ih hxs h1]

theorem countOf_bump_self {κ : Type} [DecidableEq κ] (acc : List (κ × Nat)) (k : κ) :
    countOf (bump acc k) k = countOf acc k + 1 := by
  induction acc with
  | nil => simp [bump, countOf]
  | cons e rest ih =>
    obtain ⟨g, c⟩ := e
    by_cases hg : g = k
    · subst hg
      simp [bump, countOf, List.filter_cons]
      omega
    · simp [bump, countOf, List.filter_cons, hg] at ih ⊢
      omega

theorem countOf_bump_ne {κ : Type} [DecidableEq κ] (acc : List (κ × Nat)) {k k' : κ}
    (h : k ≠ k') : countOf (bump acc k) k' = countOf acc k' := by
  induction acc with
  | nil => simp [bump, countOf, List.filter_cons, h]
  | cons e rest ih =>
    obtain ⟨g, c⟩ := e
    by_cases hg : g = k
    · subst hg
      simp [bump, countOf, List.filter_cons, h]
    · simp [bump, countOf, List.filter_cons, hg] at ih ⊢
      by_cases hg' : g = k' <;> simp [hg', ih]

theorem countOf_bumpAll {κ : Type} [DecidableEq κ] (ks : List κ) (acc : List (κ × Nat))
    (k : κ) : countOf (bumpAll acc ks) k = countOf acc k + countKey ks k := by
  induction ks generalizing acc with
  | nil => simp [bumpAll, countKey]
  | cons a ks ih =>
    simp only [bumpAll] at ih ⊢
    rw [List.foldl_cons, ih (bump acc a), countKey_cons]
    by_cases ha : a = k
    · subst ha
      rw [countOf_bump_self]
      simp
      omega
    · rw [countOf_bump_ne _ ha]
      simp [ha]

theorem countOf_foldl_bumpAll {κ : Type} [DecidableEq κ] (kss : List (List κ))
    (acc : List (κ × Nat)) (k : κ) :
    countOf (kss.foldl bumpAll acc) k = countOf acc k + (kss.map (fun ks => countKey ks k)).sum := by
  induction kss generalizing acc with
  | nil => simp
  | cons ks kss ih =>
    simp only [List.foldl_cons, List.map_cons, List.sum_cons]
    rw [ih (bumpAll acc ks), countOf_bumpAll]
    omega

theorem countOf_tally {κ : Type} [DecidableEq κ] (kss : List (List κ)) (k : κ) :
    countOf (tally kss) k = (kss.map (fun ks => countKey ks k)).sum := by
  have h := countOf_foldl_bumpAll kss [] k
  simpa [tally, countOf] using h

theorem mapFst_bump {κ : Type} [DecidableEq κ] (acc : List (κ × Nat)) (k : κ) :
    (bump acc k).map Prod.fst =
      if k ∈ acc.map Prod.fst then acc.map Prod.fst else acc.map Prod.fst ++ [k] := by
  induction acc with
  | nil => simp [bump]
  | cons e rest ih =>
    obtain ⟨g, c⟩ := e
    by_cases hg : g = k
    · subst hg
      simp [bump]
    · have hkg : ¬ k = g := fun hh => hg hh.symm
      by_cases hk : k ∈ rest.map Prod.fst <;>
        simp [bump, hg, ih, hk, hkg]

theorem mapFst_bumpAll {κ : Type} [DecidableEq κ] (ks : List κ) (acc : List (κ × Nat)) :
    (bumpAll acc ks).map Prod.fst =
      ks.foldl (fun a k => if k ∈ a then a else a ++ [k]) (acc.map Prod.fst) := by
  induction ks generalizing acc with
  | nil => simp [bumpAll]
  | cons a ks ih =>
    simp only [bumpAll, List.foldl_cons] at ih ⊢
    rw [ih (bump acc a), mapFst_bump]

theorem mapFst_foldl_bumpAll {κ : Type} [DecidableEq κ] (kss : List (List κ))
    (acc : List (κ × Nat)) :
    (kss.foldl bumpAll acc).map Prod.fst =
      kss.foldl (fun a ks => ks.foldl (fun a k => if k ∈ a then a else a ++ [k]) a)
        (acc.map Prod.fst) := by
  induction kss generalizing acc with
  | nil => simp
  | cons ks kss ih =>
    simp only [List.foldl_cons]
    rw [ih (bumpAll acc ks), mapFst_bumpAll]

theorem mapFst_tally {κ : Type} [DecidableEq κ] (kss : List (List κ)) :
    (tally kss).map Prod.fst = firstSeenKeys kss := by
  have h := mapFst_foldl_bumpAll kss []
  simpa [tally, firstSeenKeys] using h

theorem sumSnd_bump {κ : Type} [DecidableEq κ] (acc : List (κ × Nat)) (k : κ) :
    ((bump acc k).map (fun e => e.2)).sum = ((acc.map (fun e => e.2)).sum) + 1 := by
  induction acc with
  | nil => simp [bump]
  | cons e rest ih =>
    obtain ⟨g, c⟩ := e
    by_cases hg : g = k <;> simp [bump, hg, ih] <;> omega

theorem sumSnd_bumpAll {κ : Type} [DecidableEq κ] (ks : List κ) (acc : List (κ × Nat)) :
    ((bumpAll acc ks).map (fun e => e.2)).sum = ((acc.map (fun e => e.2)).sum) + ks.length := by
  induction ks generalizing acc with
  | nil => simp [bumpAll]
  | cons a ks ih =>
    simp only [bumpAll, List.foldl_cons] at ih ⊢
    rw [ih (bump acc a), sumSnd_bump]
    simp [List.length_cons]
    omega

theorem sumSnd_foldl_bumpAll {κ : Type} [DecidableEq κ] (kss : List (List κ))
    (acc : List (κ × Nat)) :
    ((kss.foldl bumpAll acc).map (fun e => e.2)).sum =
      ((acc.map (fun e => e.2)).sum) + (kss.map List.length).sum := by
  induction kss generalizing acc with
  | nil => simp
  | cons ks kss ih =>
    simp only [List.foldl_cons, List.map_cons, List.sum_cons]
    rw [ih (bumpAll acc ks), sumSnd_bumpAll]
    omega

theorem sumSnd_tally {κ : Type} [DecidableEq κ] (kss : List (List κ)) :
    ((tally kss).map (fun e => e.2)).sum = (kss.map List.length).sum := by
  have h := sumSnd_foldl_bumpAll kss []
  simpa [tally] using h

theorem mem_bump {κ : Type} [DecidableEq κ] {acc : List (κ × Nat)} {k : κ} {e : κ × Nat}
    (h : e ∈ bump acc k) : e ∈ acc ∨ e.1 = k := by
  induction acc with
  | nil =>
    simp [bump] at h
    simp [h]
  | cons f rest ih =>
    obtain ⟨g, c⟩ := f
    by_cases hg : g = k
    · subst hg
      simp only [bump, if_pos rfl] at h
      cases h with
      | head => exact Or.inr rfl
      | tail _ h1 => exact Or.inl (List.mem_cons_of_mem _ h1)
    · simp only [bump, if_neg hg] at h
      cases h with
      | head => exact Or.inl (List.mem_cons_self _ _)
      | tail _ h1 =>
        cases ih h1 with
        | inl h2 => exact Or.inl (List.mem_cons_of_mem _ h2)
        | inr h2 => exact Or.inr h2

theorem mem_bumpAll {κ : Type} [DecidableEq κ] {ks : List κ} {acc : List (κ × Nat)}
    {e : κ × Nat} (h : e ∈ bumpAll acc ks) : e ∈ acc ∨ e.1 ∈ ks := by
  induction ks generalizing acc with
  | nil => exact Or.inl h
  | cons a ks ih =>
    simp only [bumpAll, List.foldl_cons] at h
    rcases ih h with h' | h'
    · rcases mem_bump h' with h'' | h''
      · exact Or.inl h''
      · exact Or.inr (by simp [h''])
    · exact Or.inr (List.mem_cons_of_mem _ h')

theorem mem_tally {κ : Type} [DecidableEq κ] {kss : List (List κ)} {e : κ × Nat}
    (h : e ∈ tally kss) : ∃ ks ∈ kss, e.1 ∈ ks := by
  have aux : ∀ (kss : List (List κ)) (acc : List (κ × Nat)), e ∈ kss.foldl bumpAll acc →
      e ∈ acc ∨ ∃ ks ∈ kss, e.1 ∈ ks := by
    intro kss
    induction kss with
    | nil => intro acc h'; exact Or.inl h'
    | cons ks kss ih =>
      intro acc h'
      simp only [List.foldl_cons] at h'
      rcases ih (bumpAll acc ks) h' with h'' | h''
      · rcases mem_bumpAll h'' with h3 | h3
        · exact Or.inl h3
        · exact Or.inr ⟨ks, by simp, h3⟩
      · obtain ⟨ks', hks', hmem⟩ := h''
        exact Or.inr ⟨ks', List.mem_cons_of_mem _ hks', hmem⟩
  rcases aux kss [] h with h' | h'
  · simp at h'
  · exact h'

theorem countOf_perm {κ : Type} [DecidableEq κ] {l1 l2 : List (κ × Nat)} (h : l1.Perm l2)
    (k : κ) : countOf l1 k = countOf l2 k :=
  List.Perm.sum_eq (List.Perm.map _ (List.Perm.filter _ h))

theorem sum_map_ite_one {α : Type} (p : α → Bool) (l : List α) :
    (l.map (fun x => if p x = true then 1 else 0)).sum = (l.filter p).length := by
  induction l with
  | nil => rfl
  | cons a l ih =>
    by_cases h : p a = true
    · simp [List.filter_cons, h, ih]
      omega
    · simp [List.filter_cons, h, ih]

/-! ### Lemmas about `pairsOf` (2-combinations of a sorted duplicate-free list) -/

theorem mem_sortAsc {x : String} {l : List String} : x ∈ sortAsc l ↔ x ∈ l :=
  (perm_sortAsc l).mem_iff

theorem nodup_sortAsc {l : List String} : (sortAsc l).Nodup ↔ l.Nodup :=
  (perm_sortAsc l).nodup_iff

theorem count_map_pair (x a b : String) (xs : List String) :
    countKey (xs.map (fun y => (x, y))) (a, b) = if x = a then countKey xs b else 0 := by
  induction xs with
  | nil => simp [countKey]
  | cons y ys ih =>
    simp only [List.map_cons, countKey_cons, ih]
    by_cases hx : x = a
    · subst hx
      by_cases hy : y = b
      · subst hy
        simp [countKey_cons]
      · simp [countKey_cons, hy, Prod.ext_iff]
    · simp [hx, Prod.ext_iff]

theorem count_pairsOf {a b : String} (hab : strLt a b = true) :
    ∀ (l : List String), List.Pairwise (fun u v => strLt v u = false) l → l.Nodup →
      countKey (pairsOf l) (a, b) = if a ∈ l ∧ b ∈ l then 1 else 0 := by
  intro l
  induction l with
  | nil =>
    intro _ _
    simp [pairsOf, countKey]
  | cons x xs ih =>
    intro hs hn
    rcases List.pairwise_cons.mp hs with ⟨hx, hs'⟩
    rcases List.nodup_cons.mp hn with ⟨hnx, hn'⟩
    simp only [pairsOf, countKey_append, count_map_pair, ih hs' hn']
    by_cases hxa : x = a
    · subst hxa
      have hnab : ¬ (x ∈ xs ∧ b ∈ xs) := fun hh => hnx hh.1
      have hbx : b ≠ x := by
        intro hh
        subst hh
        rw [strLt_irrefl] at hab
        exact Bool.false_ne_true hab
      by_cases hb : b ∈ xs
      · rw [countKey_eq_one_of_mem hn' hb]
        have hxxs : x ∉ xs := fun hh => hnab ⟨hh, hb⟩
        simp [hxxs, hb, List.mem_cons]
      · rw [countKey_eq_zero hb]
        have hbcons : b ∉ x :: xs := by
          simp only [List.mem_cons]
          intro hh
          rcases hh with hh | hh
          · exact hbx hh
          · exact hb hh
        simp [hnab, hbcons, hb, List.mem_cons]
    · have hax : a ≠ x := fun hh => hxa hh.symm
      by_cases ha : a ∈ xs
      · by_cases hb : b ∈ xs
        · simp [hxa, ha, hb, List.mem_cons]
        · have hbx : b ≠ x := by
            intro hh
            subst hh
            have := hx a ha
            rw [this] at hab
            exact Bool.false_ne_true hab
          simp [hxa, ha, hb, List.mem_cons, hbx, hax]
      · simp [hxa, ha, List.mem_cons, hax]

theorem strLt_of_mem_pairsOf {a b : String} :
    ∀ {l : List String}, List.Pairwise (fun u v => strLt v u = false) l → l.Nodup →
      (a, b) ∈ pairsOf l → strLt a b = true := by
  intro l
  induction l with
  | nil =>
    intro _ _ h
    simp [pairsOf] at h
  | cons x xs ih =>
    intro hs hn h
    rcases List.pairwise_cons.mp hs with ⟨hx, hs'⟩
    rcases List.nodup_cons.mp hn with ⟨hnx, hn'⟩
    simp only [pairsOf, List.mem_append, List.mem_map] at h
    rcases h with ⟨y, hy, hxy⟩ | h
    · have hax : x = a := congrArg Prod.fst hxy
      have hby : y = b := congrArg Prod.snd hxy
      subst hax
      subst hby
      refine strLt_true_of_ne (hx y hy) ?_
      intro hh
      apply hnx
      rw [hh]
      exact hy
    · exact ih hs' hn' h

theorem commitPairs_count {a b : String} (hab : strLt a b = true) (c : Commit)
    (hnd : c.2.Nodup) :
    countKey (commitPairs c) (a, b) =
      if eligible c = true ∧ a ∈ c.2 ∧ b ∈ c.2 then 1 else 0 := by
  by_cases he : eligible c = true
  · simp only [commitPairs, he, if_true]
    rw [count_pairsOf hab (sortAsc c.2) (sorted_sortAsc c.2) (nodup_sortAsc.mpr hnd)]
    simp [mem_sortAsc, he]
  · simp [commitPairs, he, countKey]

theorem strLt_of_mem_commitPairs {a b : String} {c : Commit} (hnd : c.2.Nodup)
    (h : (a, b) ∈ commitPairs c) : strLt a b = true := by
  by_cases he : eligible c = true
  · simp only [commitPairs, he, if_true] at h
    exact strLt_of_mem_pairsOf (sorted_sortAsc c.2) (nodup_sortAsc.mpr hnd) h
  · simp [commitPairs, he] at h

/-! ### Pipeline-level lemmas -/

theorem countOf_cochangeRaw {a b : String} (hab : strLt a b = true) (commits : List Commit)
    (h : ∀ c ∈ commits, c.2.Nodup) :
    countOf (cochangeRaw commits) (a, b) =
      (commits.filter (fun c => eligible c && decide (a ∈ c.2) && decide (b ∈ c.2))).length := by
  have hpt : ∀ c ∈ commits, ((fun ks => countKey ks (a, b)) ∘ commitPairs) c =
      if (eligible c && decide (a ∈ c.2) && decide (b ∈ c.2)) = true then 1 else 0 := by
    intro c hc
    show countKey (commitPairs c) (a, b) = _
    rw [commitPairs_count hab c (h c hc)]
    by_cases h1 : eligible c = true <;> by_cases h2 : a ∈ c.2 <;> by_cases h3 : b ∈ c.2 <;>
      simp [h1, h2, h3]
  rw [cochangeRaw, countOf_tally, List.map_map,
    ← sum_map_ite_one (fun c => eligible c && decide (a ∈ c.2) && decide (b ∈ c.2)) commits]
  exact congrArg List.sum (List.map_congr_left hpt)

theorem countOf_churnRaw (commits : List Commit) (f : String) :
    countOf (churnRaw commits) f = (commits.map (fun c => countKey c.2 f)).sum := by
  rw [churnRaw, countOf_tally, List.map_map]
  rfl

theorem countOf_calculate_churn (commits : List Commit) (f : String) :
    countOf (calculate_churn commits) f = countOf (churnRaw commits) f :=
  countOf_perm (perm_sortDescBy _ _) f

theorem mem_calculate_coupling {minC : Nat} {commits : List Commit}
    {e : (String × String) × Nat} :
    e ∈ calculate_coupling minC commits ↔ e ∈ cochangeRaw commits ∧ minC ≤ e.2 := by
  unfold calculate_coupling
  rw [(perm_sortDescBy _ _).mem_iff, List.mem_filter]
  simp

theorem countOf_eq_zero_of_not_mem_keys {κ : Type} [DecidableEq κ] {acc : List (κ × Nat)}
    {k : κ} (h : k ∉ acc.map Prod.fst) : countOf acc k = 0 := by
  induction acc with
  | nil => rfl
  | cons e rest ih =>
    simp only [List.map_cons, List.mem_cons] at h
    push_neg at h
    obtain ⟨h1, h2⟩ := h
    have hne : ¬ (e.1 = k) := fun hh => h1 hh.symm
    simpa [countOf, List.filter_cons, hne] using ih h2

theorem countOf_eq_of_mem_of_nodupKeys {κ : Type} [DecidableEq κ] {acc : List (κ × Nat)}
    {k : κ} {c : Nat} (hk : (acc.map Prod.fst).Nodup) (hm : (k, c) ∈ acc) :
    countOf acc k = c := by
  induction acc with
  | nil => simp at hm
  | cons e rest ih =>
    obtain ⟨g, d⟩ := e
    simp only [List.map_cons, List.nodup_cons] at hk
    obtain ⟨h1, h2⟩ := hk
    rcases List.mem_cons.mp hm with hm1 | hm1
    · have hgk : k = g := congrArg Prod.fst hm1
      have hdc : c = d := congrArg Prod.snd hm1
      subst hgk
      subst hdc
      have hz : countOf rest k = 0 := countOf_eq_zero_of_not_mem_keys h1
      unfold countOf at hz ⊢
      simp [List.filter_cons, hz]
    · have hgk : ¬ (g = k) := by
        intro hh
        subst hh
        exact h1 (List.mem_map.mpr ⟨(g, c), hm1, rfl⟩)
      simpa [countOf, List.filter_cons, hgk] using ih h2 hm1

theorem exists_entry_of_mem_keys {κ : Type} [DecidableEq κ] {acc : List (κ × Nat)} {k : κ}
    (h : k ∈ acc.map Prod.fst) : ∃ c, (k, c) ∈ acc := by
  obtain ⟨⟨k1, c⟩, he, hek⟩ := List.mem_map.mp h
  cases hek
  exact ⟨c, he⟩

theorem mem_highChurnFiles {churnT : List (String × Nat)} {f : String}
    (hk : (churnT.map Prod.fst).Nodup) :
    f ∈ highChurnFiles churnT ↔ 20 ≤ countOf churnT f := by
  constructor
  · intro h
    obtain ⟨⟨g, c⟩, hmem, hgf⟩ := List.mem_map.mp h
    rcases List.mem_filter.mp hmem with ⟨hin, hc⟩
    cases hgf
    rw [countOf_eq_of_mem_of_nodupKeys hk hin]
    simpa using hc
  · intro h
    have hf : f ∈ churnT.map Prod.fst := by
      by_contra hnf
      rw [countOf_eq_zero_of_not_mem_keys hnf] at h
      omega
    obtain ⟨c, hc⟩ := exists_entry_of_mem_keys hf
    have hcc := countOf_eq_of_mem_of_nodupKeys hk hc
    refine List.mem_map.mpr ⟨(f, c), List.mem_filter.mpr ⟨hc, ?_⟩, rfl⟩
    simp only [decide_eq_true_eq]
    omega

theorem highCouplingIncident_iff {coupling : List ((String × String) × Nat)} {f : String} :
    highCouplingIncident coupling f = true ↔
      ∃ e ∈ coupling, 8 ≤ e.2 ∧ (e.1.1 = f ∨ e.1.2 = f) := by
  simp [highCouplingIncident, List.any_eq_true]

theorem mem_critical_files {churnT : List (String × Nat)}
    {coupling : List ((String × String) × Nat)} {f : String}
    (hk : (churnT.map Prod.fst).Nodup) :
    f ∈ critical_files churnT coupling ↔
      20 ≤ countOf churnT f ∧ ∃ e ∈ coupling, 8 ≤ e.2 ∧ (e.1.1 = f ∨ e.1.2 = f) := by
  unfold critical_files
  rw [mem_sortAsc, List.mem_dedup, List.mem_filter, mem_highChurnFiles hk,
    highCouplingIncident_iff]

theorem cochangeRaw_drop_not_eligible (pre post : List Commit) (c : Commit)
    (h : eligible c = false) :
    cochangeRaw (pre ++ c :: post) = cochangeRaw (pre ++ post) := by
  unfold cochangeRaw tally
  rw [List.map_append, List.map_append, List.map_cons]
  rw [List.foldl_append, List.foldl_append, List.foldl_cons]
  have hcp : commitPairs c = [] := by simp [commitPairs, h]
  rw [hcp]
  rfl

theorem churn_insert_commit (pre post : List Commit) (c : Commit) (f : String) :
    countOf (churnRaw (pre ++ c :: post)) f =
      countOf (churnRaw (pre ++ post)) f + countKey c.2 f := by
  rw [countOf_churnRaw, countOf_churnRaw]
  rw [List.map_append, List.map_append, List.map_cons, List.sum_append, List.sum_append,
    List.sum_cons]
  omega

theorem churn_sum_eq (commits : List Commit) :
    ((calculate_churn commits).map (fun p => p.2)).sum =
      (commits.map (fun c => c.2.length)).sum := by
  have hperm := perm_sortDescBy (fun p : String × Nat => p.2) (churnRaw commits)
  rw [calculate_churn, List.Perm.sum_eq (List.Perm.map _ hperm)]
  have hsum := sumSnd_tally (commits.map (fun c => c.2))
  rw [churnRaw, hsum, List.map_map]
  rfl

theorem couplingTotal_cons (e : (String × String) × Nat)
    (l : List ((String × String) × Nat)) (f : String) :
    couplingTotal (e :: l) f =
      (if (decide (e.1.1 = f) || decide (e.1.2 = f)) = true then e.2 else 0) +
        couplingTotal l f := by
  by_cases h : (decide (e.1.1 = f) || decide (e.1.2 = f)) = true <;>
    simp [couplingTotal, List.filter_cons, h]

theorem couplingTotal_split (coupling : List ((String × String) × Nat)) (f : String) :
    couplingTotal coupling f =
      couplingTotal (coupling.filter (fun e => decide (8 ≤ e.2))) f +
        couplingTotal (coupling.filter (fun e => decide (e.2 < 8))) f := by
  induction coupling with
  | nil => rfl
  | cons e l ih =>
    by_cases h8 : 8 ≤ e.2
    · have hn8 : ¬ (e.2 < 8) := by omega
      have hf1 : (e :: l).filter (fun e => decide (8 ≤ e.2)) =
          e :: l.filter (fun e => decide (8 ≤ e.2)) := by
        simp [List.filter_cons, h8]
      have hf2 : (e :: l).filter (fun e => decide (e.2 < 8)) =
          l.filter (fun e => decide (e.2 < 8)) := by
        simp [List.filter_cons, hn8]
      rw [couplingTotal_cons, hf1, hf2, couplingTotal_cons, ih]
      omega
    · have hn8 : e.2 < 8 := by omega
      have hf1 : (e :: l).filter (fun e => decide (8 ≤ e.2)) =
          l.filter (fun e => decide (8 ≤ e.2)) := by
        simp [List.filter_cons, h8]
      have hf2 : (e :: l).filter (fun e => decide (e.2 < 8)) =
          e :: l.filter (fun e => decide (e.2 < 8)) := by
        simp [List.filter_cons, hn8]
      rw [couplingTotal_cons, hf1, hf2, couplingTotal_cons, ih]
      omega

theorem nodupKeys_bump {κ : Type} [DecidableEq κ] {acc : List (κ × Nat)} (k : κ)
    (h : (acc.map Prod.fst).Nodup) : ((bump acc k).map Prod.fst).Nodup := by
  rw [mapFst_bump]
  by_cases hk : k ∈ acc.map Prod.fst
  · simp [hk, h]
  · simp [hk, List.nodup_append, h]

theorem nodupKeys_bumpAll {κ : Type} [DecidableEq κ] (ks : List κ) {acc : List (κ × Nat)}
    (h : (acc.map Prod.fst).Nodup) : ((bumpAll acc ks).map Prod.fst).Nodup := by
  induction ks generalizing acc with
  | nil => exact h
  | cons a ks ih =>
    simp only [bumpAll, List.foldl_cons] at ih ⊢
    exact ih (nodupKeys_bump a h)

theorem nodupKeys_tally {κ : Type} [DecidableEq κ] (kss : List (List κ)) :
    ((tally kss).map Prod.fst).Nodup := by
  have aux : ∀ (kss : List (List κ)) (acc : List (κ × Nat)), ((acc.map Prod.fst).Nodup) →
      (((kss.foldl bumpAll acc).map Prod.fst).Nodup) := by
    intro kss
    induction kss with
    | nil => intro acc h; exact h
    | cons ks kss ih =>
      intro acc h
      exact ih _ (nodupKeys_bumpAll ks h)
  exact aux kss [] (by simp)

theorem snd_eq_countOf_of_mem_tally {κ : Type} [DecidableEq κ] {kss : List (List κ)}
    {e : κ × Nat} (h : e ∈ tally kss) : countOf (tally kss) e.1 = e.2 :=
  countOf_eq_of_mem_of_nodupKeys (nodupKeys_tally kss) h

/-! ### Claim theorems -/

/-- Claim C1: a file is in the critical-risk set exactly when its churn
count is at least 20 and it participates in some retained coupling pair
whose count is at least 8 (for a churn table with unique keys, as a Python
dict always has); in particular every critical file satisfies both
conditions. -/
theorem C1_critical_files (churnT : List (String × Nat))
    (coupling : List ((String × String) × Nat)) (hk : (churnT.map Prod.fst).Nodup)
    (f : String) :
    f ∈ critical_files churnT coupling ↔
      20 ≤ countOf churnT f ∧ ∃ e ∈ coupling, 8 ≤ e.2 ∧ (e.1.1 = f ∨ e.1.2 = f) :=
  mem_critical_files hk

/-- Witness for C1 on the demo pipeline output: `a.rs` has churn 20 and
sits in the pair `(a.rs, b.rs) : 9`, so it is critical. -/
theorem C1_critical_files_witness :
    "a.rs" ∈ critical_files (calculate_churn demoCommits) (calculate_coupling 5 demoCommits) :=
  (C1_critical_files (calculate_churn demoCommits) (calculate_coupling 5 demoCommits)
      (by decide) "a.rs").mpr
    ⟨by decide, (("a.rs", "b.rs"), 9), by decide, by decide, Or.inl rfl⟩

/-- Claim C2: for duplicate-free commit records (the data model's
CommitRecord carries per-commit deduplicated files), the counter stored for
a canonical pair `(a, b)` equals the number of eligible commits containing
both files; a pair is retained exactly when its counter reaches
`minCochanges`, every retained entry carries exactly its stored counter,
and the spec's concrete scenario `C1={A}, C2={A,B}, C3={A,B,C}` computes
churn `{A:3, B:2, C:1}`, pairs `{(A,B):2, (A,C):1, (B,C):1}` at threshold 1
and only `(A,B):2` at threshold 2. -/
theorem C2_coupling_count (commits : List Commit) (h : ∀ c ∈ commits, c.2.Nodup)
    (a b : String) (hab : strLt a b = true) (minC : Nat) :
    countOf (cochangeRaw commits) (a, b) =
        (commits.filter (fun c => eligible c && decide (a ∈ c.2) && decide (b ∈ c.2))).length
    ∧ (∀ e : (String × String) × Nat,
        e ∈ calculate_coupling minC commits ↔ e ∈ cochangeRaw commits ∧ minC ≤ e.2)
    ∧ (∀ e ∈ calculate_coupling minC commits, e.2 = countOf (cochangeRaw commits) e.1)
    ∧ calculate_churn scenarioCommits = [("A", 3), ("B", 2), ("C", 1)]
    ∧ calculate_coupling 1 scenarioCommits = [(("A", "B"), 2), (("A", "C"), 1), (("B", "C"), 1)]
    ∧ calculate_coupling 2 scenarioCommits = [(("A", "B"), 2)] := by
  refine ⟨countOf_cochangeRaw hab commits h, fun e => mem_calculate_coupling, ?_,
    by decide, by decide, by decide⟩
  intro e he
  exact (snd_eq_countOf_of_mem_tally (mem_calculate_coupling.mp he).1).symm

/-- Witness for C2 at the spec scenario: the counter of `(A, B)` equals the
number of eligible commits containing both `A` and `B`. -/
theorem C2_coupling_count_witness :
    countOf (cochangeRaw scenarioCommits) ("A", "B") =
      (scenarioCommits.filter
          (fun c => eligible c && decide ("A" ∈ c.2) && decide ("B" ∈ c.2))).length :=
  (C2_coupling_count scenarioCommits (by decide) "A" "B" (by decide) 1).1

/-- Claim C3 counterexample: the extractor does not deduplicate file-path
lines, so a log whose commits each list `a.rs` twice makes the detector
emit the pair `(a.rs, a.rs)` — equal, not lexicographically ordered,
components — and a single commit listing `a.rs` twice plus `b.rs` counts
the unordered pair `(a.rs, b.rs)` twice. -/
theorem C3_counterexample :
    calculate_coupling 5 (get_commits_from_log
        "COMMIT:h1\na.rs\na.rs\nCOMMIT:h2\na.rs\na.rs\nCOMMIT:h3\na.rs\na.rs\nCOMMIT:h4\na.rs\na.rs\nCOMMIT:h5\na.rs\na.rs")
      = [(("a.rs", "a.rs"), 5)]
    ∧ strLt "a.rs" "a.rs" = false
    ∧ countOf (cochangeRaw (get_commits_from_log "COMMIT:h1\na.rs\na.rs\nb.rs"))
        ("a.rs", "b.rs") = 2 := by
  refine ⟨by decide, rfl, by decide⟩

/-- Claim C3 (amended): provided every commit's file list is duplicate-free
— which the extractor does not itself guarantee — every emitted pair has
strictly lexicographically ordered, hence distinct, components, and no
commit contributes more than 1 to any pair's counter. -/
theorem C3_pairs_canonical_of_nodup (commits : List Commit) (minC : Nat)
    (h : ∀ c ∈ commits, c.2.Nodup) :
    ∀ e ∈ calculate_coupling minC commits,
      strLt e.1.1 e.1.2 = true ∧ e.1.1 ≠ e.1.2 ∧
        ∀ c ∈ commits, countKey (commitPairs c) e.1 ≤ 1 := by
  intro e he
  rcases mem_calculate_coupling.mp he with ⟨hraw, _⟩
  obtain ⟨ks, hks, hmem⟩ := mem_tally hraw
  obtain ⟨c0, hc0, hkseq⟩ := List.mem_map.mp hks
  subst hkseq
  have hlt : strLt e.1.1 e.1.2 = true :=
    strLt_of_mem_commitPairs (h c0 hc0) hmem
  refine ⟨hlt, ?_, ?_⟩
  · intro hh
    rw [hh, strLt_irrefl] at hlt
    exact Bool.false_ne_true hlt
  · intro c hc
    show countKey (commitPairs c) (e.1.1, e.1.2) ≤ 1
    rw [commitPairs_count hlt c (h c hc)]
    by_cases hcase : eligible c = true ∧ e.1.1 ∈ c.2 ∧ e.1.2 ∈ c.2 <;> simp [hcase]

/-- Witness for C3 (amended) at the spec scenario, pair `(A, B)`. -/
theorem C3_pairs_canonical_of_nodup_witness :
    strLt "A" "B" = true ∧ "A" ≠ "B" ∧
      ∀ c ∈ scenarioCommits, countKey (commitPairs c) ("A", "B") ≤ 1 :=
  C3_pairs_canonical_of_nodup scenarioCommits 1 (by decide) (("A", "B"), 2) (by decide)

/-- Claim C4: a commit with exactly 1 filtered file, or with 11 or more, is
ineligible for pairing and contributes nothing to the pair counters
(deleting it from the stream leaves `cochangeRaw` unchanged), while still
adding its file occurrences to every churn count; a commit is eligible
exactly when its filtered file count lies in `[2, 10]`. -/
theorem C4_boundary (pre post : List Commit) (c : Commit) :
    ((c.2.length = 1 ∨ 11 ≤ c.2.length) → eligible c = false)
    ∧ (eligible c = false → cochangeRaw (pre ++ c :: post) = cochangeRaw (pre ++ post))
    ∧ (∀ f, countOf (calculate_churn (pre ++ c :: post)) f =
        countOf (calculate_churn (pre ++ post)) f + countKey c.2 f)
    ∧ (eligible c = true ↔ 2 ≤ c.2.length ∧ c.2.length ≤ 10) := by
  refine ⟨?_, fun h => cochangeRaw_drop_not_eligible pre post c h, ?_, ?_⟩
  · intro h
    simp only [eligible, Bool.and_eq_false_iff, decide_eq_false_iff_not]
    omega
  · intro f
    rw [countOf_calculate_churn, countOf_calculate_churn]
    exact churn_insert_commit pre post c f
  · simp [eligible]

/-- Witness for C4 on a single-file commit. -/
theorem C4_boundary_witness :
    eligible ("h", ["a.rs"]) = false
    ∧ cochangeRaw ([] ++ ("h", ["a.rs"]) :: []) = cochangeRaw ([] ++ [])
    ∧ countOf (calculate_churn ([] ++ ("h", ["a.rs"]) :: [])) "a.rs" =
        countOf (calculate_churn ([] ++ [])) "a.rs" + countKey ["a.rs"] "a.rs" := by
  have h := C4_boundary [] [] ("h", ["a.rs"])
  exact ⟨h.1 (Or.inl rfl), h.2.1 (h.1 (Or.inl rfl)), h.2.2.1 "a.rs"⟩

/-- Claim C5: for duplicate-free commit records, the churn count of any
file equals the number of commits containing it (a plain frequency count),
and the sum of all churn values equals the total number of (commit, file)
memberships after extension filtering. -/
theorem C5_churn_frequency (commits : List Commit) (h : ∀ c ∈ commits, c.2.Nodup)
    (f : String) :
    countOf (calculate_churn commits) f =
        (commits.filter (fun c => decide (f ∈ c.2))).length
    ∧ ((calculate_churn commits).map (fun p => p.2)).sum =
        (commits.map (fun c => c.2.length)).sum := by
  refine ⟨?_, churn_sum_eq commits⟩
  rw [countOf_calculate_churn, countOf_churnRaw,
    ← sum_map_ite_one (fun c => decide (f ∈ c.2)) commits]
  apply congrArg List.sum
  apply List.map_congr_left
  intro c hc
  by_cases hf : f ∈ c.2
  · rw [countKey_eq_one_of_mem (h c hc) hf]
    simp [hf]
  · rw [countKey_eq_zero hf]
    simp [hf]

/-- Witness for C5 at the spec scenario, file `A`. -/
theorem C5_churn_frequency_witness :
    countOf (calculate_churn scenarioCommits) "A" =
      (scenarioCommits.filter (fun c => decide ("A" ∈ c.2))).length :=
  (C5_churn_frequency scenarioCommits (by decide) "A").1

/-- Claim C6: the churn table is sorted by descending count; entries of any
fixed count appear exactly as in the raw insertion-ordered dictionary,
whose key sequence is the first-seen order of files in the commit stream —
so ties are broken by first-seen order, deterministically. -/
theorem C6_churn_order (commits : List Commit) (k : Nat) :
    List.Pairwise (fun a b : String × Nat => b.2 ≤ a.2) (calculate_churn commits)
    ∧ (calculate_churn commits).filter (fun p => decide (p.2 = k)) =
        (churnRaw commits).filter (fun p => decide (p.2 = k))
    ∧ (churnRaw commits).map Prod.fst = firstSeen commits := by
  refine ⟨sorted_sortDescBy _ _, ?_, ?_⟩
  · exact filter_sortDescBy (fun p : String × Nat => p.2) k (churnRaw commits)
  · rw [churnRaw, firstSeen, mapFst_tally]

/-- Claim C7 counterexample: two equal-count pairs are output in dictionary
insertion order, not canonical pair order — `(b.rs, c.rs)` was created
first and precedes the lexicographically smaller `(a.rs, b.rs)`. -/
theorem C7_counterexample :
    calculate_coupling 5
        (List.replicate 5 ("h1", ["b.rs", "c.rs"]) ++
          List.replicate 5 ("h2", ["a.rs", "b.rs"]))
      = [(("b.rs", "c.rs"), 5), (("a.rs", "b.rs"), 5)]
    ∧ strLt "a.rs" "b.rs" = true := by
  exact ⟨by decide, by decide⟩

/-- Claim C7 (amended): the retained pairs are sorted by descending count,
and ties between equal-count pairs keep the insertion order of the
`cochange_count` dictionary — the order in which the pairs were first
created while scanning the commit stream — not canonical lexicographic
pair order. -/
theorem C7_coupling_order_amended (minC : Nat) (commits : List Commit) (k : Nat) :
    List.Pairwise (fun a b : (String × String) × Nat => b.2 ≤ a.2)
        (calculate_coupling minC commits)
    ∧ (calculate_coupling minC commits).filter (fun e => decide (e.2 = k)) =
        ((cochangeRaw commits).filter (fun e => decide (minC ≤ e.2))).filter
          (fun e => decide (e.2 = k)) :=
  ⟨sorted_sortDescBy _ _,
    filter_sortDescBy (fun e : (String × String) × Nat => e.2) k _⟩

/-- Claim C8 counterexample: the rendered neighbor list of a coupling
cluster is not invariant under the enumeration order of the neighbor set —
two enumerations of the same two-element set with equal counts render
differently.  The Python code stores neighbors in a `set` of tuples whose
iteration order depends on randomized string hashing, so two runs on the
same commits can produce different bytes for equal-count neighbors. -/
theorem C8_counterexample :
    ([("x.rs", 1), ("y.rs", 1)] : List (String × Nat)).Perm [("y.rs", 1), ("x.rs", 1)]
    ∧ neighborRender [("x.rs", 1), ("y.rs", 1)] ≠ neighborRender [("y.rs", 1), ("x.rs", 1)] :=
  ⟨by decide, by decide⟩

/-- Claim C8 (amended): apart from the timestamp line, the pipeline output
is a pure function of the commit sequence except for the order of
equal-count cluster neighbors; whenever a cluster's neighbor counts are
pairwise distinct, the rendered neighbor list is independent of the set
enumeration order, so reruns are byte-identical on such clusters. -/
theorem C8_neighbor_render_deterministic (conn conn' : List (String × Nat))
    (hp : conn.Perm conn') (hc : (conn.map (fun e => e.2)).Nodup) :
    neighborRender conn = neighborRender conn' := by
  have hs1 := sorted_sortDescBy (fun e : String × Nat => e.2) conn
  have hs2 := sorted_sortDescBy (fun e : String × Nat => e.2) conn'
  have hperm : (sortDescBy (fun e : String × Nat => e.2) conn).Perm
      (sortDescBy (fun e : String × Nat => e.2) conn') :=
    ((perm_sortDescBy _ conn).trans hp).trans (perm_sortDescBy _ conn').symm
  have hc1 : ((sortDescBy (fun e : String × Nat => e.2) conn).map (fun e => e.2)).Nodup :=
    (List.Perm.nodup_iff (List.Perm.map _ (perm_sortDescBy _ conn))).mpr hc
  have hc2 : ((sortDescBy (fun e : String × Nat => e.2) conn').map (fun e => e.2)).Nodup :=
    (List.Perm.nodup_iff (List.Perm.map _ hperm)).mp hc1
  have hstrict : ∀ (l : List (String × Nat)),
      List.Pairwise (fun a b : String × Nat => b.2 ≤ a.2) l →
      ((l.map (fun e => e.2)).Nodup) →
      List.Pairwise (fun a b : String × Nat => b.2 < a.2) l := by
    intro l hs hn
    have hne : List.Pairwise (fun a b : String × Nat => a.2 ≠ b.2) l :=
      (List.pairwise_map).mp hn
    exact (hs.and hne).imp (fun hh => lt_of_le_of_ne hh.1 (fun h2 => hh.2 h2.symm))
  have heq : sortDescBy (fun e : String × Nat => e.2) conn =
      sortDescBy (fun e : String × Nat => e.2) conn' := by
    haveI : IsAntisymm (String × Nat) (fun a b => b.2 < a.2) :=
      ⟨fun a b h1 h2 => absurd h2 (by omega)⟩
    exact List.eq_of_perm_of_sorted hperm (hstrict _ hs1 hc1) (hstrict _ hs2 hc2)
  unfold neighborRender
  rw [heq]

/-- Witness for C8 (amended): distinct counts make the render independent
of enumeration order. -/
theorem C8_neighbor_render_deterministic_witness :
    neighborRender [("x.rs", 2), ("y.rs", 1)] = neighborRender [("y.rs", 1), ("x.rs", 2)] :=
  C8_neighbor_render_deterministic _ _ (by decide) (by decide)

/-- Claim C9 counterexample: a nonzero git exit (for example an invalid
repository) is not fatal — `run_git` never inspects the return code, so
the pipeline runs on the captured (empty) stdout and succeeds with empty
tables instead of aborting with nonzero status. -/
theorem C9_counterexample : pipeline (GitResult.failed "") 5 = Except.ok ([], []) := rfl

/-- Claim C9 (amended): only a missing git binary aborts the pipeline (an
uncaught `FileNotFoundError`); a nonzero git exit is processed exactly like
a success with the same stdout, and an empty history is a valid, non-error
result yielding empty churn and coupling collections. -/
theorem C9_error_handling_amended :
    (∃ e, pipeline GitResult.toolMissing 5 = Except.error e)
    ∧ (∀ out minC, pipeline (GitResult.failed out) minC = pipeline (GitResult.ok out) minC)
    ∧ (∀ minC, pipeline (GitResult.ok "") minC = Except.ok ([], [])) :=
  ⟨⟨"FileNotFoundError: git executable not found", rfl⟩, fun _ _ => rfl, fun _ => rfl⟩

/-- Claim C10: the critical files are listed in ascending lexicographic
order; each file's reported aggregate coupling sums the counts of all
retained pairs containing it — those below the 8 threshold included, as the
split identity shows — and on the demo history `a.rs` reports total 14,
which includes the count-5 pair `(a.rs, c.rs)` that did not qualify it for
the critical set. -/
theorem C10_risk_entries (churnT : List (String × Nat))
    (coupling : List ((String × String) × Nat)) :
    List.Pairwise (fun a b : String => strLt b a = false) (critical_files churnT coupling)
    ∧ (∀ f, couplingTotal coupling f =
        couplingTotal (coupling.filter (fun e => decide (8 ≤ e.2))) f +
          couplingTotal (coupling.filter (fun e => decide (e.2 < 8))) f)
    ∧ riskEntries (calculate_churn demoCommits) (calculate_coupling 5 demoCommits) =
        [("a.rs", 20, 14), ("b.rs", 20, 9)] :=
  ⟨sorted_sortAsc _, fun f => couplingTotal_split coupling f, by decide⟩
